import Mathlib

set_option maxRecDepth 8000

/-!
Shallow embedding of `cli/fmt_errors.rs` (Deno's error formatter).

Rust `&str` values are modelled as Lean `String` (a list of Unicode scalar
values); byte-level operations (`str::len`, `str::get` with byte ranges) are
modelled explicitly through the UTF-8 byte size of each character.  Fallible
code paths (`unwrap`, `usize` underflow) are modelled by returning `Option`,
with `none` standing for a panic.
-/

namespace FmtErrors

/-- UTF-8 byte size of one Unicode scalar value, as in Rust `char::len_utf8`. -/
def charSize (c : Char) : Nat :=
  if c.toNat < 128 then 1
  else if c.toNat < 2048 then 2
  else if c.toNat < 65536 then 3
  else 4

/-- UTF-8 byte length of a character list, as in Rust `str::len`. -/
def byteLen (cs : List Char) : Nat := (cs.map charSize).sum

/-- Rust `str::len` on a `String`. -/
def utf8Len (s : String) : Nat := byteLen s.data

/-- Number of Unicode scalar values, as in Rust `str::chars().count()`. -/
def charLen (s : String) : Nat := s.data.length

/-- Rust `str::get(0..n)` (byte index, checked for range and char boundary):
returns the characters spanning exactly the first `n` bytes, or `none`. -/
def takeBytes : Nat → List Char → Option (List Char)
  | 0, _ => some []
  | _ + 1, [] => none
  | n + 1, c :: rest =>
    if charSize c ≤ n + 1 then
      (takeBytes (n + 1 - charSize c) rest).map (fun l => c :: l)
    else none

/-- Rust `str::get(n..)` (byte index, checked for range and char boundary):
returns the characters after the first `n` bytes, or `none`. -/
def dropBytes : Nat → List Char → Option (List Char)
  | 0, cs => some cs
  | _ + 1, [] => none
  | n + 1, c :: rest =>
    if charSize c ≤ n + 1 then dropBytes (n + 1 - charSize c) rest
    else none

/-- Rust `usize` subtraction `a - b`, which panics (debug) on underflow;
the underflow is modelled as `none`. -/
def checkedSub (a b : Nat) : Option Nat :=
  if b ≤ a then some (a - b) else none

/-- Rust `str::split_once(sep)`: split at the first occurrence of `sep`. -/
def splitOnce (sep : Char) : List Char → Option (List Char × List Char)
  | [] => none
  | c :: rest =>
    if c = sep then some ([], rest)
    else (splitOnce sep rest).map (fun p => (c :: p.1, p.2))

/-- Bool test: `needle` is a contiguous substring of the second argument,
as in Rust `str::contains` with a string pattern. -/
def listContains (needle : List Char) : List Char → Bool
  | [] => needle.isEmpty
  | c :: t => needle.isPrefixOf (c :: t) || listContains needle t

/-- The single-quote character, U+0027. -/
def squote : String := String.mk [Char.ofNat 39]

/-- The literal diagnostic marker `"Couldn't format source line: "`. -/
def marker : String := "Couldn" ++ squote ++ "t format source line: "

/-- Modelled from the spec (section 6): the color capability is an external
collaborator, swappable and disabled for non-terminal output; reference tests
strip the styling, so each style is modelled as the identity on text. -/
def cyan (s : String) : String := s

/-- Modelled from the spec (section 6): identity styling, see `cyan`. -/
def yellow (s : String) : String := s

/-- Modelled from the spec (section 6): identity styling, see `cyan`. -/
def red (s : String) : String := s

/-- Modelled from the spec (section 6): identity styling, see `cyan`. -/
def italic_bold (s : String) : String := s

/-- A parsed URL, reduced to the two observations the formatter makes:
`scheme` and `path`. -/
structure Url where
  scheme : List Char
  path : List Char
deriving DecidableEq

/-- Character allowed after the first position of a URL scheme. -/
def schemeTailChar (c : Char) : Bool :=
  c.isAlphanum || c = '+' || c = '-' || c = '.'

/-- A valid URL scheme: one ASCII letter, then letters, digits, `+`, `-`, `.`. -/
def schemeOk : List Char → Bool
  | [] => false
  | c :: rest => c.isAlpha && rest.all schemeTailChar

/-- ASCII lowercasing of one character (schemes are lowercased by parsing). -/
def lowerChar (c : Char) : Char :=
  if 'A' ≤ c ∧ c ≤ 'Z' then Char.ofNat (c.toNat + 32) else c

/-- Path of a cannot-be-a-base URL: everything up to `?` or `#`. -/
def takeUntilQF : List Char → List Char
  | [] => []
  | c :: rest => if c = '?' ∨ c = '#' then [] else c :: takeUntilQF rest

/-- Modelled from the spec (section 6): the URL parsing collaborator
(`deno_core::url::Url`, an external dependency whose code is not part of this
repository) exposing scheme/path extraction.  Simplified WHATWG parsing for
cannot-be-a-base URLs such as `data:`: the scheme is the (validated,
lowercased) run before the first `:`, the path is the remainder up to the
first `?` or `#`.  Whitespace stripping, percent-encoding and authority-form
URLs are not modelled. -/
def parseUrl (s : String) : Option Url :=
  match splitOnce ':' s.data with
  | none => none
  | some (sch, rest) =>
    if schemeOk sch then some ⟨sch.map lowerChar, takeUntilQF rest⟩
    else none

/-- The six-dot ellipsis inserted between the abbreviated payload pieces. -/
def dots6 : List Char := ['.', '.', '.', '.', '.', '.']

/-- `format_file_name` from `cli/fmt_errors.rs`, parameterised by the URL
parsing collaborator.  `none` models a panic (the `usize` underflow in
`data_length - 20`). -/
def format_file_name (parse : String → Option Url) (file_name : String) :
    Option String :=
  if 150 < utf8Len file_name then
    match parse file_name with
    | some url =>
      if url.scheme = "data".data then
        match splitOnce ',' url.path with
        | some pieces =>
          match takeBytes 20 pieces.2 with
          | some pre =>
            match checkedSub (byteLen pieces.2) 20 with
            | some k =>
              match dropBytes k pieces.2 with
              | some suf =>
                some (String.mk (url.scheme ++ ':' :: pieces.1 ++
                  ',' :: pre ++ dots6 ++ suf))
              | none => some file_name
            | none => none
          | none => some file_name
        | none => some file_name
      else some file_name
    | none => some file_name
  else some file_name

/-- Modelled from the spec (section 3) and the field accesses in
`cli/fmt_errors.rs`: the `deno_core::error::JsStackFrame` record (its
definition lives outside this repository). -/
structure JsStackFrame where
  type_name : Option String
  function_name : Option String
  method_name : Option String
  file_name : Option String
  line_number : Option Int
  column_number : Option Int
  eval_origin : Option String
  is_top_level : Option Bool
  is_eval : Bool
  is_native : Bool
  is_constructor : Bool
  is_async : Bool
  is_promise_all : Bool
  promise_index : Option Int

/-- The `:line:column` suffix appended by `format_location`. -/
def lineColSuffix (frame : JsStackFrame) : String :=
  match frame.line_number with
  | none => ""
  | some ln =>
    ":" ++ yellow (toString ln) ++
      (match frame.column_number with
       | none => ""
       | some cn => ":" ++ yellow (toString cn))

/-- `format_location` from `cli/fmt_errors.rs`.  `none` models the panic on
`frame.eval_origin.as_ref().unwrap()` when `eval_origin` is absent. -/
def format_location (frame : JsStackFrame) : Option String :=
  if frame.is_native then some (cyan ("native"))
  else
    match (match frame.file_name with
           | some fn => (format_file_name parseUrl fn).map (fun a => cyan a)
           | none =>
             if frame.is_eval then
               match frame.eval_origin with
               | some eo => some (cyan eo ++ ", " ++ cyan ("<anonymous>"))
               | none => none
             else some (cyan ("<anonymous>"))) with
    | none => none
    | some base => some (base ++ lineColSuffix frame)

/-- `format_frame` from `cli/fmt_errors.rs`. -/
def format_frame (frame : JsStackFrame) : Option String :=
  let isMethodCall := !(frame.is_top_level.getD false || frame.is_constructor)
  let asyncPre := if frame.is_async then "async " else ""
  if frame.is_promise_all then
    some (asyncPre ++ italic_bold ("Promise.all (index " ++
      toString (frame.promise_index.getD 0) ++ ")"))
  else if isMethodCall then
    let fm :=
      match frame.function_name with
      | some fn =>
        (match frame.type_name with
         | some tn => if !(tn.data.isPrefixOf fn.data) then tn ++ "." else ""
         | none => "") ++ fn ++
        (match frame.method_name with
         | some mn =>
           if !(mn.data.isSuffixOf fn.data) then " [as " ++ mn ++ "]" else ""
         | none => "")
      | none =>
        (match frame.type_name with
         | some tn => tn ++ "."
         | none => "") ++
        (match frame.method_name with
         | some mn => mn
         | none => "<anonymous>")
    (format_location frame).map
      (fun loc => asyncPre ++ italic_bold fm ++ " (" ++ loc ++ ")")
  else if frame.is_constructor then
    (format_location frame).map (fun loc =>
      asyncPre ++ "new " ++
        (match frame.function_name with
         | some fn => italic_bold fn
         | none => cyan ("<anonymous>")) ++ " (" ++ loc ++ ")")
  else
    match frame.function_name with
    | some fn =>
      (format_location frame).map
        (fun loc => asyncPre ++ italic_bold fn ++ " (" ++ loc ++ ")")
    | none => (format_location frame).map (fun loc => asyncPre ++ loc)

/-- Rust `i64 as usize`: two's-complement reinterpretation, i.e. mod 2^64. -/
def castUsize (n : Int) : Nat := (n % (2 ^ 64 : Int)).toNat

/-- Indentation of `level` space characters, `format!("{:indent$}", "")`. -/
def indentStr (level : Nat) : String := String.mk (List.replicate level ' ')

/-- The tab-preserving caret prefix scan: for `i` in `0..n`, a tab where
`source_line.chars().nth(i)` is a tab, else a space; `none` models the panic
of `.unwrap()` when `nth` runs past the end of the character sequence. -/
def tabSpaces : Nat → List Char → Option (List Char)
  | 0, _ => some []
  | _ + 1, [] => none
  | n + 1, c :: rest =>
    (tabSpaces n rest).map (fun l => (if c = '\t' then '\t' else ' ') :: l)

/-- The caret line styling: red for errors, cyan otherwise. -/
def caretColor (is_error : Bool) (s : String) : String :=
  if is_error then red s else cyan s

/-- `format_maybe_source_line` from `cli/fmt_errors.rs`.  `none` models the
panic in the prefix scan (`chars().nth(i).unwrap()`). -/
def format_maybe_source_line (source_line : Option String)
    (column_number : Option Int) (is_error : Bool) (level : Nat) :
    Option String :=
  match source_line, column_number with
  | some sl, some cn =>
    if sl.data = [] ∨ 150 < utf8Len sl then some ""
    else if listContains marker.data sl.data then some ("\n" ++ sl)
    else if utf8Len sl < castUsize cn then
      some ("\n" ++ yellow ("Warning") ++ " " ++ marker ++ "Column " ++
        toString cn ++ " is out of bounds (source may have changed at runtime)")
    else
      match tabSpaces (cn - 1).toNat sl.data with
      | some pad =>
        some ("\n" ++ indentStr level ++ sl ++ "\n" ++ indentStr level ++
          caretColor is_error (String.mk (pad ++ ['^'])))
      | none => none
  | _, _ => some ""

/-- The frame lines of `format_stack`: for each frame in order, a new line
`"\n<indent>    at <frame>"`. -/
def renderFrames (level : Nat) : List JsStackFrame → Option String
  | [] => some ""
  | f :: rest =>
    match format_frame f, renderFrames level rest with
    | some d, some r =>
      some ("\n" ++ indentStr level ++ "    at " ++ d ++ r)
    | _, _ => none

/-- The column lookup of `format_stack`:
`source_line_frame_index.and_then(|i| frames.get(i).unwrap().column_number)`.
The outer `Option` models the panic of `.unwrap()` on an out-of-range index;
the inner `Option Int` is the Rust `Option<i64>` result. -/
def colStep (source_line_frame_index : Option Nat)
    (frames : List JsStackFrame) : Option (Option Int) :=
  match source_line_frame_index with
  | none => some none
  | some i => (frames.get? i).map (fun f => f.column_number)

/-- `format_stack` from `cli/fmt_errors.rs`.  `none` models a panic; in
particular the column lookup is `frames.get(i).unwrap().column_number`, which
panics when `source_line_frame_index` is out of range. -/
def format_stack (is_error : Bool) (message_line : String)
    (cause : Option String) (source_line : Option String)
    (source_line_frame_index : Option Nat) (frames : List JsStackFrame)
    (level : Nat) : Option String :=
  match colStep source_line_frame_index frames with
  | none => none
  | some col =>
    match format_maybe_source_line source_line col is_error level with
    | none => none
    | some src =>
      match renderFrames level frames with
      | none => none
      | some fr =>
        some (indentStr level ++ message_line ++ src ++ fr ++
          (match cause with
           | none => ""
           | some c => "\n" ++ indentStr level ++ "Caused by: " ++ c))

/-- Modelled from the spec (section 3) and the field accesses in
`cli/fmt_errors.rs`: the `deno_core::error::JsError` record restricted to the
fields the formatter reads, with its owned optional `cause` chain. -/
inductive JsError : Type where
  | mk : String → Option String → Option Nat → List JsStackFrame →
      Option JsError → JsError

/-- The `exception_message` field. -/
def JsError.exception_message : JsError → String
  | .mk m _ _ _ _ => m

/-- The `source_line` field. -/
def JsError.source_line : JsError → Option String
  | .mk _ s _ _ _ => s

/-- The `source_line_frame_index` field. -/
def JsError.source_line_frame_index : JsError → Option Nat
  | .mk _ _ i _ _ => i

/-- The `frames` field. -/
def JsError.frames : JsError → List JsStackFrame
  | .mk _ _ _ f _ => f

/-- The `cause` field. -/
def JsError.cause : JsError → Option JsError
  | .mk _ _ _ _ c => c

/-- The `Display` implementation of `PrettyJsError`: the cause is rendered
first (recursively, at level 0) and passed to `format_stack` as a string. -/
def prettyJsError : JsError → Option String
  | .mk m sl idx fr none => format_stack true m none sl idx fr 0
  | .mk m sl idx fr (some c) =>
    match prettyJsError c with
    | none => none
    | some cs => format_stack true m (some cs) sl idx fr 0

/-- The spec's column lookup (section 4.5 step 2): `frames[i].column_number`
when the index is present and in range, else `none`. -/
def specCol (idx : Option Nat) (fr : List JsStackFrame) : Option Int :=
  match idx with
  | none => none
  | some i =>
    match fr.get? i with
    | some f => f.column_number
    | none => none

/-- The frame descriptions in order, `none` if any frame fails to render. -/
def mapFrames : List JsStackFrame → Option (List String)
  | [] => some []
  | f :: rest =>
    match format_frame f, mapFrames rest with
    | some d, some ds => some (d :: ds)
    | _, _ => none

/-- The spec's frame list (section 4.5 step 4): each description in order as
a new line `"\n<indent>    at <description>"`, concatenated. -/
def joinFrameLines (level : Nat) : List String → String
  | [] => ""
  | d :: ds => "\n" ++ indentStr level ++ "    at " ++ d ++
      joinFrameLines level ds

/-- The report shape the spec describes for a top-level report (section 4.5,
level 0): the message line, the source-line fragment for the spec's
bounds-checked column, the frame lines in their given order, and, when a
cause is present, exactly one `"Caused by: "` line holding the cause's own
fully rendered report at the same indentation. -/
def specRender : JsError → Option String
  | .mk m sl idx fr none =>
    match format_maybe_source_line sl (specCol idx fr) true 0 with
    | none => none
    | some src =>
      match mapFrames fr with
      | none => none
      | some ds => some (m ++ src ++ joinFrameLines 0 ds)
  | .mk m sl idx fr (some c) =>
    match format_maybe_source_line sl (specCol idx fr) true 0 with
    | none => none
    | some src =>
      match mapFrames fr with
      | none => none
      | some ds =>
        match specRender c with
        | none => none
        | some cs =>
          some (m ++ src ++ joinFrameLines 0 ds ++ "\nCaused by: " ++ cs)

/-- The index is absent or in range of the frame list. -/
def idxOk (idx : Option Nat) (fr : List JsStackFrame) : Bool :=
  match idx with
  | none => true
  | some i => decide (i < fr.length)

/-- Every `source_line_frame_index` along the cause chain is absent or in
range of its own `frames` (the code's unchecked `unwrap` never fires). -/
def wfChain : JsError → Bool
  | .mk _ _ idx fr cause =>
    idxOk idx fr &&
    (match cause with
     | none => true
     | some c => wfChain c)

/-- A frame with every optional field absent and every flag false. -/
def blankFrame : JsStackFrame :=
  ⟨none, none, none, none, none, none, none, none,
   false, false, false, false, false, none⟩

/-- The C2 failing input: not native, no file name, `is_eval` set but
`eval_origin` absent. -/
def evalFrame : JsStackFrame :=
  ⟨none, none, none, none, none, none, none, none,
   true, false, false, false, false, none⟩

/-- A `Promise.all` frame with `promise_index = 2` and `is_async = false`. -/
def promiseFrame : JsStackFrame :=
  ⟨none, none, none, none, none, none, none, none,
   false, false, false, false, true, some 2⟩

/-- The character U+00E9 (a two-byte character in UTF-8). -/
def eAcute : Char := Char.ofNat 233

/-- A two-character, four-byte source line. -/
def eeLine : String := String.mk [eAcute, eAcute]

/-- The scenario source line `console.log('foo');`. -/
def consoleLine : String :=
  "console.log(" ++ squote ++ "foo" ++ squote ++ ");"

/-- 150 repetitions of `a`, used as a long data-URL header. -/
def aHeader : List Char := List.replicate 150 'a'

/-- A 31-character payload (shorter than 40, but at least 20). -/
def payload31 : String := "0123456789012345678901234567890"

/-- A 187-byte `data:` URL whose payload after the comma has 31 characters. -/
def dataUrl31 : String :=
  String.mk ('d' :: 'a' :: 't' :: 'a' :: ':' ::
    (aHeader ++ ',' :: payload31.data))

/-- What `format_file_name` produces for `dataUrl31`: overlapping 20-byte
prefix and suffix of the 31-byte payload. -/
def dataUrl31Abbrev : String :=
  String.mk ("data".data ++ ':' :: aHeader ++
    ',' :: "01234567890123456789".data ++ dots6 ++
    "12345678901234567890".data)

/-- A 159-byte `data:` URL whose payload after the comma has 3 characters. -/
def dataUrl3 : String :=
  String.mk ('d' :: 'a' :: 't' :: 'a' :: ':' ::
    (aHeader ++ ',' :: "012".data))

/-- The parse result of `dataUrl3` under `parseUrl`. -/
def dataUrl3Parsed : Url := ⟨"data".data, aHeader ++ ',' :: "012".data⟩

/-- A cause chain of depth 2 with empty frame lists. -/
def chain2 : JsError :=
  .mk "error A" none none []
    (some (.mk "error B" none none []
      (some (.mk "error C" none none [] none))))

/- ### Supporting lemmas -/

theorem strExt {s t : String} (h : s.data = t.data) : s = t := by
  cases s; cases t; exact congrArg String.mk h

theorem data_append (s t : String) : (s ++ t).data = s.data ++ t.data := rfl

theorem charSize_pos (c : Char) : 1 ≤ charSize c := by
  unfold charSize; split <;> try omega
  split <;> try omega
  split <;> omega

theorem byteLen_append (xs ys : List Char) :
    byteLen (xs ++ ys) = byteLen xs + byteLen ys := by
  simp [byteLen]

theorem byteLen_cons (c : Char) (cs : List Char) :
    byteLen (c :: cs) = charSize c + byteLen cs := by
  simp [byteLen]

theorem length_le_byteLen (cs : List Char) : cs.length ≤ byteLen cs := by
  induction cs with
  | nil => simp [byteLen]
  | cons c cs ih =>
    have := charSize_pos c
    rw [byteLen_cons]
    simp only [List.length_cons]
    omega

theorem charLen_le_utf8Len (s : String) : charLen s ≤ utf8Len s :=
  length_le_byteLen s.data

theorem takeBytes_cons (n : Nat) (c : Char) (rest : List Char) (hn : n ≠ 0) :
    takeBytes n (c :: rest) =
      if charSize c ≤ n then
        (takeBytes (n - charSize c) rest).map (fun l => c :: l)
      else none := by
  cases n with
  | zero => exact absurd rfl hn
  | succ n => rfl

theorem takeBytes_some : ∀ {n : Nat} {cs r : List Char},
    takeBytes n cs = some r → ∃ rest, cs = r ++ rest ∧ byteLen r = n := by
  intro n cs
  induction cs generalizing n with
  | nil =>
    intro r h
    cases n with
    | zero =>
      simp [takeBytes] at h
      subst h
      exact ⟨[], rfl, rfl⟩
    | succ n => simp [takeBytes] at h
  | cons c cs ih =>
    intro r h
    cases n with
    | zero =>
      simp [takeBytes] at h
      subst h
      exact ⟨c :: cs, rfl, rfl⟩
    | succ n =>
      rw [takeBytes_cons _ _ _ (Nat.succ_ne_zero n)] at h
      by_cases hc : charSize c ≤ n + 1
      · rw [if_pos hc] at h
        cases heq : takeBytes (n + 1 - charSize c) cs with
        | none => rw [heq] at h; exact Option.noConfusion h
        | some r' =>
          rw [heq] at h
          simp only [Option.map_some', Option.some.injEq] at h
          obtain ⟨rest, hcs, hlen⟩ := ih heq
          refine ⟨rest, by rw [← h, hcs, List.cons_append], ?_⟩
          rw [← h, byteLen_cons, hlen]
          omega
      · rw [if_neg hc] at h; exact Option.noConfusion h

theorem takeBytes_le {n : Nat} {cs r : List Char}
    (h : takeBytes n cs = some r) : n ≤ byteLen cs := by
  obtain ⟨rest, hcs, hlen⟩ := takeBytes_some h
  rw [hcs, byteLen_append, hlen]
  omega

theorem takeBytes_append_exact : ∀ (xs ys : List Char),
    takeBytes (byteLen xs) (xs ++ ys) = some xs := by
  intro xs
  induction xs with
  | nil => intro ys; simp [byteLen, takeBytes]
  | cons c xs ih =>
    intro ys
    have hpos := charSize_pos c
    rw [byteLen_cons, List.cons_append,
      takeBytes_cons _ _ _ (by omega), if_pos (by omega)]
    have hsub : charSize c + byteLen xs - charSize c = byteLen xs := by omega
    rw [hsub, ih]
    rfl

theorem dropBytes_cons (n : Nat) (c : Char) (rest : List Char) (hn : n ≠ 0) :
    dropBytes n (c :: rest) =
      if charSize c ≤ n then dropBytes (n - charSize c) rest
      else none := by
  cases n with
  | zero => exact absurd rfl hn
  | succ n => rfl

theorem dropBytes_some : ∀ {n : Nat} {cs r : List Char},
    dropBytes n cs = some r → ∃ front, cs = front ++ r ∧ byteLen front = n := by
  intro n cs
  induction cs generalizing n with
  | nil =>
    intro r h
    cases n with
    | zero =>
      simp [dropBytes] at h
      subst h
      exact ⟨[], rfl, rfl⟩
    | succ n => simp [dropBytes] at h
  | cons c cs ih =>
    intro r h
    cases n with
    | zero =>
      simp [dropBytes] at h
      subst h
      exact ⟨[], rfl, rfl⟩
    | succ n =>
      rw [dropBytes_cons _ _ _ (Nat.succ_ne_zero n)] at h
      by_cases hc : charSize c ≤ n + 1
      · rw [if_pos hc] at h
        obtain ⟨front, hcs, hlen⟩ := ih h
        refine ⟨c :: front, by rw [hcs, List.cons_append], ?_⟩
        rw [byteLen_cons, hlen]
        omega
      · rw [if_neg hc] at h; exact Option.noConfusion h

theorem dropBytes_append_exact : ∀ (xs ys : List Char),
    dropBytes (byteLen xs) (xs ++ ys) = some ys := by
  intro xs
  induction xs with
  | nil => intro ys; simp [byteLen, dropBytes]
  | cons c xs ih =>
    intro ys
    have hpos := charSize_pos c
    rw [byteLen_cons, List.cons_append,
      dropBytes_cons _ _ _ (by omega), if_pos (by omega)]
    have hsub : charSize c + byteLen xs - charSize c = byteLen xs := by omega
    rw [hsub, ih]

theorem splitOnce_eq : ∀ {sep : Char} {cs a b : List Char},
    splitOnce sep cs = some (a, b) → cs = a ++ sep :: b ∧ sep ∉ a := by
  intro sep cs
  induction cs with
  | nil => intro a b h; simp [splitOnce] at h
  | cons c rest ih =>
    intro a b h
    rw [splitOnce] at h
    by_cases hc : c = sep
    · rw [if_pos hc] at h
      simp only [Option.some.injEq, Prod.mk.injEq] at h
      obtain ⟨ha, hb⟩ := h
      subst ha; subst hb; subst hc
      exact ⟨rfl, by simp⟩
    · rw [if_neg hc] at h
      cases heq : splitOnce sep rest with
      | none => rw [heq] at h; simp at h
      | some p =>
        rw [heq] at h
        simp only [Option.map_some', Option.some.injEq, Prod.mk.injEq] at h
        obtain ⟨ha, hb⟩ := h
        obtain ⟨hrest, hnotin⟩ := ih (a := p.1) (b := p.2) (by rw [heq])
        subst hb
        rw [← ha, hrest]
        refine ⟨by simp, ?_⟩
        intro hmem
        rcases List.mem_cons.mp hmem with h1 | h1
        · exact hc h1.symm
        · exact hnotin h1

theorem splitOnce_append : ∀ {sep : Char} (a b : List Char), sep ∉ a →
    splitOnce sep (a ++ sep :: b) = some (a, b) := by
  intro sep a
  induction a with
  | nil => intro b _; simp [splitOnce]
  | cons c a ih =>
    intro b hnotin
    have hc : ¬(c = sep) := by
      intro hh
      exact hnotin (by simp [hh])
    rw [List.cons_append, splitOnce, if_neg hc,
      ih b (fun hm => hnotin (List.mem_cons_of_mem _ hm))]
    rfl

theorem takeUntilQF_noQF : ∀ {cs : List Char} {c : Char},
    c ∈ takeUntilQF cs → ¬(c = '?' ∨ c = '#') := by
  intro cs
  induction cs with
  | nil => intro c h; simp [takeUntilQF] at h
  | cons x rest ih =>
    intro c h
    rw [takeUntilQF] at h
    by_cases hx : x = '?' ∨ x = '#'
    · rw [if_pos hx] at h; simp at h
    · rw [if_neg hx] at h
      rcases List.mem_cons.mp h with h1 | h1
      · subst h1; exact hx
      · exact ih h1

theorem takeUntilQF_id : ∀ {cs : List Char},
    (∀ c ∈ cs, ¬(c = '?' ∨ c = '#')) → takeUntilQF cs = cs := by
  intro cs
  induction cs with
  | nil => intro _; rfl
  | cons x rest ih =>
    intro h
    rw [takeUntilQF, if_neg (h x (by simp)), ih (fun c hc => h c (by simp [hc]))]

theorem parseUrl_path_noQF {s : String} {u : Url} (h : parseUrl s = some u) :
    ∀ c ∈ u.path, ¬(c = '?' ∨ c = '#') := by
  unfold parseUrl at h
  split at h
  · exact Option.noConfusion h
  · split at h
    · obtain rfl := (Option.some.injEq _ _).mp h
      intro c hc
      exact takeUntilQF_noQF hc
    · exact Option.noConfusion h

theorem parse_data {rest : List Char}
    (h : ∀ c ∈ rest, ¬(c = '?' ∨ c = '#')) :
    parseUrl (String.mk ('d' :: 'a' :: 't' :: 'a' :: ':' :: rest)) =
      some ⟨"data".data, rest⟩ := by
  have h1 : parseUrl (String.mk ('d' :: 'a' :: 't' :: 'a' :: ':' :: rest)) =
      some ⟨"data".data, takeUntilQF rest⟩ := rfl
  rw [h1, takeUntilQF_id h]

theorem tabSpaces_eq : ∀ {n : Nat} {cs : List Char}, n ≤ cs.length →
    tabSpaces n cs =
      some ((cs.take n).map (fun c => if c = '\t' then '\t' else ' ')) := by
  intro n cs
  induction cs generalizing n with
  | nil =>
    intro h
    have : n = 0 := by simpa using h
    subst this
    rfl
  | cons c rest ih =>
    intro h
    cases n with
    | zero => rfl
    | succ n =>
      rw [tabSpaces, ih (by simpa using h)]
      rfl

theorem renderFrames_eq : ∀ (level : Nat) (fs : List JsStackFrame),
    renderFrames level fs = (mapFrames fs).map (joinFrameLines level) := by
  intro level fs
  induction fs with
  | nil => rfl
  | cons f rest ih =>
    rw [renderFrames, mapFrames, ih]
    cases format_frame f with
    | none => rfl
    | some d =>
      cases mapFrames rest with
      | none => rfl
      | some ds => rfl

/- ### Claim theorems -/

/-- C1: the claim says an out-of-range `source_line_frame_index` is
defensively bounds-checked, the column is treated as absent, and the complete
report is still returned.  The code instead evaluates
`frames.get(i).unwrap()`, which panics on any out-of-range index (modelled as
`none`): with an empty frame list and index 0 no report is produced at
all. -/
theorem format_stack_panics_on_out_of_range_index :
    format_stack true ("boom") none none (some 0) [] 0 = none := by rfl

/-- C2: the claim says a frame with `is_native = false`, `file_name` absent,
`is_eval = true` and `eval_origin` absent formats as the literal
`<anonymous>` and that `format_location` never fails.  The code instead
evaluates `frame.eval_origin.as_ref().unwrap()`, which panics (modelled as
`none`) on exactly this combination of optional fields. -/
theorem format_location_panics_on_absent_eval_origin :
    evalFrame.is_native = false ∧ evalFrame.file_name = none ∧
    evalFrame.is_eval = true ∧ evalFrame.eval_origin = none ∧
    format_location evalFrame = none := by decide

/-- C3: the claim says that whenever `column_number` exceeds the character
length of the source line the exact out-of-bounds warning is returned, and
that this never fails for non-ASCII text.  The code compares the column
against the byte length instead: for the two-character, four-byte line
`"éé"`, column 3 (greater than the character length 2) produces a caret line
instead of the warning, and column 4 panics in `chars().nth(i).unwrap()`
while scanning the prefix (modelled as `none`). -/
theorem format_maybe_source_line_nonascii_divergence :
    charLen eeLine = 2 ∧ utf8Len eeLine = 4 ∧
    format_maybe_source_line (some eeLine) (some 3) true 0 =
      some ("\n" ++ eeLine ++ "\n" ++ "  ^") ∧
    format_maybe_source_line (some eeLine) (some 4) true 0 = none := by decide

/-- C7: a frame with `is_promise_all = true` and `is_async = false` is
described as exactly `Promise.all (index <promise_index or 0>)`, with no
location suffix appended. -/
theorem format_frame_promise_all (frame : JsStackFrame)
    (h1 : frame.is_promise_all = true) (h2 : frame.is_async = false) :
    format_frame frame =
      some ("Promise.all (index " ++
        toString (frame.promise_index.getD 0) ++ ")") := by
  unfold format_frame
  rw [h1, h2]
  rfl

/-- C7 witness: with `promise_index = 2` the description is exactly
`Promise.all (index 2)`. -/
theorem format_frame_promise_all_witness :
    format_frame promiseFrame = some ("Promise.all (index 2)") :=
  (format_frame_promise_all promiseFrame rfl rfl).trans (by decide)

/-- C8: `format_maybe_source_line` returns the empty string whenever the
source line is absent, the column number is absent, the source line is empty,
or the source line is longer than 150 characters, irrespective of the other
arguments. -/
theorem format_maybe_source_line_empty_cases (sl : Option String)
    (cn : Option Int) (ie : Bool) (lvl : Nat)
    (h : sl = none ∨ cn = none ∨ sl = some "" ∨
      ∃ s, sl = some s ∧ 150 < charLen s) :
    format_maybe_source_line sl cn ie lvl = some "" := by
  rcases h with h | h | h | ⟨s, hs, hlen⟩
  · subst h; rfl
  · subst h; cases sl <;> rfl
  · subst h
    cases cn with
    | none => rfl
    | some c =>
      simp only [format_maybe_source_line]
      rw [if_pos (Or.inl trivial)]
  · subst hs
    cases cn with
    | none => rfl
    | some c =>
      have hb : 150 < utf8Len s := lt_of_lt_of_le hlen (charLen_le_utf8Len s)
      simp only [format_maybe_source_line]
      rw [if_pos (Or.inr hb)]

/-- C8 witness: an absent source line yields the empty string. -/
theorem format_maybe_source_line_empty_cases_witness :
    format_maybe_source_line none (some 5) true 2 = some "" :=
  format_maybe_source_line_empty_cases none (some 5) true 2 (Or.inl rfl)

/-- C6 counterexample: the claim as stated quantifies over every non-empty
in-bounds source line, but a line containing the literal
`"Couldn't format source line: "` is passed through as-is instead of getting
a caret line: at the marker line itself with column 1 the output is a bare
newline-prefixed copy, not the claimed caret form. -/
theorem format_maybe_source_line_marker_counterexample :
    marker.data ≠ [] ∧ charLen marker ≤ 150 ∧
    format_maybe_source_line (some marker) (some 1) true 0 =
      some ("\n" ++ marker) ∧
    format_maybe_source_line (some marker) (some 1) true 0 ≠
      some ("\n" ++ marker ++ "\n" ++ "^") := by decide

/-- C6 (amended): for every non-empty source line of at most 150 bytes that
does not contain the literal `"Couldn't format source line: "`, every column
with `1 ≤ column ≤ character length` and every indentation level,
`format_maybe_source_line` returns newline, indentation, the source line,
newline, indentation, then a prefix of length `column - 1` holding a tab at
each position where the source line has a tab and a space elsewhere, followed
by a caret; in particular the `console.log('foo');` scenario renders with
eight spaces and a caret. -/
theorem format_maybe_source_line_caret (sl : String) (cn : Int) (ie : Bool)
    (lvl : Nat) (h1 : sl.data ≠ []) (h2 : utf8Len sl ≤ 150)
    (h3 : listContains marker.data sl.data = false)
    (h4 : 1 ≤ cn) (h5 : cn ≤ (charLen sl : Int)) :
    format_maybe_source_line (some sl) (some cn) ie lvl =
      some ("\n" ++ indentStr lvl ++ sl ++ "\n" ++ indentStr lvl ++
        String.mk (((sl.data.take (cn - 1).toNat).map
          (fun c => if c = '\t' then '\t' else ' ')) ++ ['^'])) ∧
    format_maybe_source_line (some consoleLine) (some 9) true 0 =
      some ("\n" ++ consoleLine ++ "\n" ++ "        ^") := by
  constructor
  · have hchar : charLen sl ≤ utf8Len sl := charLen_le_utf8Len sl
    have hcast : castUsize cn = cn.toNat := by
      unfold castUsize
      rw [Int.emod_eq_of_lt (by omega) (by omega)]
    simp only [format_maybe_source_line]
    rw [if_neg (by push_neg; exact ⟨h1, by omega⟩)]
    rw [if_neg (by rw [h3]; exact Bool.false_ne_true)]
    rw [if_neg (by rw [hcast]; simp only [charLen] at hchar h5 ⊢; omega)]
    have hle : (cn - 1).toNat ≤ sl.data.length := by
      have : cn ≤ (sl.data.length : Int) := h5
      omega
    rw [tabSpaces_eq hle]
    rcases ie with _ | _ <;> rfl
  · decide

/-- C6 witness: the amended caret theorem at the line `"ab"`, column 2. -/
theorem format_maybe_source_line_caret_witness :
    format_maybe_source_line (some ("ab")) (some 2) true 0 =
      some ("\n" ++ indentStr 0 ++ "ab" ++ "\n" ++ indentStr 0 ++
        String.mk ((("ab".data.take ((2 : Int) - 1).toNat).map
          (fun c => if c = '\t' then '\t' else ' ')) ++ ['^'])) :=
  (format_maybe_source_line_caret "ab" 2 true 0 (by decide) (by decide)
    (by decide) (by decide) (by decide)).1

theorem ffn_cases (parse : String → Option Url) (s : String) :
    format_file_name parse s = some s ∨
    ∃ url hd p pre suf, parse s = some url ∧ url.scheme = "data".data ∧
      splitOnce ',' url.path = some (hd, p) ∧ takeBytes 20 p = some pre ∧
      20 ≤ byteLen p ∧ dropBytes (byteLen p - 20) p = some suf ∧
      150 < utf8Len s ∧
      format_file_name parse s =
        some (String.mk ("data".data ++ ':' :: hd ++ ',' :: pre ++
          dots6 ++ suf)) := by
  by_cases h150 : 150 < utf8Len s
  · cases hp : parse s with
    | none => left; simp only [format_file_name, h150, if_true, hp]
    | some url =>
      by_cases hsch : url.scheme = "data".data
      · cases hsp : splitOnce ',' url.path with
        | none =>
          left
          simp only [format_file_name, h150, if_true, hp, hsch, hsp]
        | some pieces =>
          obtain ⟨hd, p⟩ := pieces
          cases htk : takeBytes 20 p with
          | none =>
            left
            simp only [format_file_name, h150, if_true, hp, hsch, hsp, htk]
          | some pre =>
            have h20 : 20 ≤ byteLen p := takeBytes_le htk
            have hcs : checkedSub (byteLen p) 20 = some (byteLen p - 20) :=
              if_pos h20
            cases hdp : dropBytes (byteLen p - 20) p with
            | none =>
              left
              simp only [format_file_name, h150, if_true, hp, hsch, hsp, htk,
                hcs, hdp]
            | some suf =>
              right
              refine ⟨url, hd, p, pre, suf, rfl, hsch, hsp, htk, h20, hdp,
                h150, ?_⟩
              simp only [format_file_name, h150, if_true, hp, hsch, hsp, htk,
                hcs, hdp]
      · left
        simp only [format_file_name, h150, if_true, hp, hsch, if_false]
  · left
    simp only [format_file_name, h150, if_false]

/-- C10: for every URL parsing collaborator and every input string,
`format_file_name` returns a string without panicking: the suffix index
computation `data_length - 20` cannot underflow, because it is evaluated only
after the 20-byte prefix slice has succeeded, which guarantees the payload is
at least 20 bytes long. -/
theorem format_file_name_total (parse : String → Option Url) (s : String) :
    ∃ r, format_file_name parse s = some r := by
  rcases ffn_cases parse s with h | ⟨_, _, _, _, _, _, _, _, _, _, _, _, h⟩
  · exact ⟨s, h⟩
  · exact ⟨_, h⟩

/-- C4 counterexample: the claim says any data URL longer than 150 bytes
whose payload after the first comma is shorter than 40 characters is returned
unchanged.  `dataUrl31` satisfies every stated precondition (187 bytes, data
scheme, comma in the path, a 31-character payload), yet the code abbreviates
it with an overlapping 20-byte prefix and suffix, because both slices exist
once the payload has at least 20 bytes. -/
theorem format_file_name_overlap_counterexample :
    150 < utf8Len dataUrl31 ∧
    parseUrl dataUrl31 =
      some ⟨"data".data, aHeader ++ ',' :: payload31.data⟩ ∧
    splitOnce ',' (aHeader ++ ',' :: payload31.data) =
      some (aHeader, payload31.data) ∧
    charLen payload31 < 40 ∧
    format_file_name parseUrl dataUrl31 = some dataUrl31Abbrev ∧
    dataUrl31Abbrev ≠ dataUrl31 := by decide

/-- C4 (amended): a file name that parses as a URL whose path's payload after
the first comma is shorter than 20 bytes is returned unchanged by
`format_file_name` (the 20-byte prefix slice fails, so no abbreviation — in
particular no overlapping one — is produced); payloads of 20 to 39 bytes are
abbreviated with overlapping prefix/suffix instead. -/
theorem format_file_name_short_payload_unchanged (s : String) (u : Url)
    (hd p : List Char) (hp : parseUrl s = some u)
    (hsp : splitOnce ',' u.path = some (hd, p)) (hlen : byteLen p < 20) :
    format_file_name parseUrl s = some s := by
  rcases ffn_cases parseUrl s with h |
    ⟨url, hd2, p2, pre, suf, hp2, _, hsp2, _, h20, _, _, _⟩
  · exact h
  · exfalso
    have hu : u = url := by
      have h1 := hp.symm.trans hp2
      exact Option.some.inj h1
    subst hu
    have h2 := hsp.symm.trans hsp2
    have h3 : p = p2 := congrArg Prod.snd (Option.some.inj h2)
    subst h3
    omega

/-- C4 witness: the 159-byte data URL with a 3-character payload is returned
unchanged. -/
theorem format_file_name_short_payload_witness :
    format_file_name parseUrl dataUrl3 = some dataUrl3 :=
  format_file_name_short_payload_unchanged dataUrl3 dataUrl3Parsed aHeader
    ("012".data) (by decide) (by decide) (by decide)

theorem abbrev_fixed (hd pre suf : List Char)
    (hqh : ∀ c ∈ hd, ¬(c = '?' ∨ c = '#'))
    (hqpre : ∀ c ∈ pre, ¬(c = '?' ∨ c = '#'))
    (hqsuf : ∀ c ∈ suf, ¬(c = '?' ∨ c = '#'))
    (hcm : ',' ∉ hd) (hpre : byteLen pre = 20) (hsuf : byteLen suf = 20) :
    format_file_name parseUrl
        (String.mk ("data".data ++ ':' :: hd ++ ',' :: pre ++ dots6 ++ suf)) =
      some (String.mk ("data".data ++ ':' :: hd ++ ',' :: pre ++
        dots6 ++ suf)) := by
  have hd6 : byteLen dots6 = 6 := by decide
  have hlist : ("data".data ++ ':' :: hd ++ ',' :: pre ++ dots6 ++ suf :
      List Char) =
      'd' :: 'a' :: 't' :: 'a' :: ':' ::
        (hd ++ ',' :: (pre ++ (dots6 ++ suf))) := by
    have hdata : ("data".data : List Char) = ['d', 'a', 't', 'a'] := rfl
    rw [hdata]
    simp [List.append_assoc]
  have hout_eq : String.mk ("data".data ++ ':' :: hd ++ ',' :: pre ++
      dots6 ++ suf) =
      String.mk ('d' :: 'a' :: 't' :: 'a' :: ':' ::
        (hd ++ ',' :: (pre ++ (dots6 ++ suf)))) := congrArg String.mk hlist
  have hnoqf : ∀ c ∈ hd ++ ',' :: (pre ++ (dots6 ++ suf)),
      ¬(c = '?' ∨ c = '#') := by
    intro c hc
    rcases List.mem_append.mp hc with hc1 | hc1
    · exact hqh c hc1
    · rcases List.mem_cons.mp hc1 with hc2 | hc2
      · subst hc2; decide
      · rcases List.mem_append.mp hc2 with hc3 | hc3
        · exact hqpre c hc3
        · rcases List.mem_append.mp hc3 with hc4 | hc4
          · revert hc4
            have : ∀ c ∈ dots6, ¬(c = '?' ∨ c = '#') := by decide
            exact this c
          · exact hqsuf c hc4
  have hparse : parseUrl (String.mk ("data".data ++ ':' :: hd ++ ',' ::
      pre ++ dots6 ++ suf)) =
      some ⟨"data".data, hd ++ ',' :: (pre ++ (dots6 ++ suf))⟩ := by
    rw [hout_eq]
    exact parse_data hnoqf
  rcases ffn_cases parseUrl (String.mk ("data".data ++ ':' :: hd ++ ',' ::
      pre ++ dots6 ++ suf)) with h |
    ⟨url, hd2, p2, pre2, suf2, hp2, hsch2, hsp2, htk2, h20, hdp2, h150, hout⟩
  · exact h
  · have hu : url = ⟨"data".data, hd ++ ',' :: (pre ++ (dots6 ++ suf))⟩ :=
      Option.some.inj (hp2.symm.trans hparse)
    subst hu
    have hsp_expect : splitOnce ','
        (hd ++ ',' :: (pre ++ (dots6 ++ suf))) =
        some (hd, pre ++ (dots6 ++ suf)) := splitOnce_append hd _ hcm
    have hpair := Option.some.inj (hsp_expect.symm.trans hsp2)
    have hhd : hd = hd2 := congrArg Prod.fst hpair
    have hp2eq : pre ++ (dots6 ++ suf) = p2 := congrArg Prod.snd hpair
    subst hhd
    subst hp2eq
    have htk_expect : takeBytes 20 (pre ++ (dots6 ++ suf)) = some pre := by
      rw [← hpre]
      exact takeBytes_append_exact pre (dots6 ++ suf)
    have hpre2 : pre = pre2 := Option.some.inj (htk_expect.symm.trans htk2)
    subst hpre2
    have hblen : byteLen (pre ++ (dots6 ++ suf)) = 46 := by
      rw [byteLen_append, byteLen_append, hpre, hsuf, hd6]
    have h26 : byteLen (pre ++ dots6) = 26 := by
      rw [byteLen_append, hpre, hd6]
    have hdp_expect : dropBytes (byteLen (pre ++ (dots6 ++ suf)) - 20)
        (pre ++ (dots6 ++ suf)) = some suf := by
      have hsub : byteLen (pre ++ (dots6 ++ suf)) - 20 =
          byteLen (pre ++ dots6) := by
        rw [hblen, h26]
      rw [hsub, show pre ++ (dots6 ++ suf) = (pre ++ dots6) ++ suf from
        (List.append_assoc _ _ _).symm]
      exact dropBytes_append_exact _ _
    have hsuf2 : suf = suf2 := Option.some.inj (hdp_expect.symm.trans hdp2)
    subst hsuf2
    exact hout

/-- C5: `format_file_name` is idempotent: whatever string it returns (it
never panics on the model parser), feeding that string back in returns it
unchanged.  Either the input is returned unchanged (all fallback paths), or
the abbreviated form is produced, whose own payload is exactly 46 bytes and
re-abbreviates to itself. -/
theorem format_file_name_idempotent (s t : String)
    (h : format_file_name parseUrl s = some t) :
    format_file_name parseUrl t = some t := by
  rcases ffn_cases parseUrl s with h0 |
    ⟨url, hd, p, pre, suf, hp, hsch, hsp, htk, h20, hdp, h150, hout⟩
  · have ht : s = t := Option.some.inj (h0.symm.trans h)
    subst ht
    exact h0
  · have ht : t = String.mk ("data".data ++ ':' :: hd ++ ',' :: pre ++
        dots6 ++ suf) := Option.some.inj (h.symm.trans hout)
    subst ht
    have hnoqf_path := parseUrl_path_noQF hp
    obtain ⟨hpath_eq, hcm⟩ := splitOnce_eq hsp
    have hqh : ∀ c ∈ hd, ¬(c = '?' ∨ c = '#') := fun c hc =>
      hnoqf_path c (by rw [hpath_eq]; exact List.mem_append_left _ hc)
    have hqp : ∀ c ∈ p, ¬(c = '?' ∨ c = '#') := fun c hc =>
      hnoqf_path c (by
        rw [hpath_eq]
        exact List.mem_append_right _ (List.mem_cons_of_mem _ hc))
    obtain ⟨rest1, hp_eq, hpre_len⟩ := takeBytes_some htk
    obtain ⟨front, hs_eq, hfront_len⟩ := dropBytes_some hdp
    have hsuf_len : byteLen suf = 20 := by
      have h1 : byteLen p = byteLen front + byteLen suf := by
        rw [hs_eq, byteLen_append]
      omega
    have hqpre : ∀ c ∈ pre, ¬(c = '?' ∨ c = '#') := fun c hc =>
      hqp c (by rw [hp_eq]; exact List.mem_append_left _ hc)
    have hqsuf : ∀ c ∈ suf, ¬(c = '?' ∨ c = '#') := fun c hc =>
      hqp c (by rw [hs_eq]; exact List.mem_append_right _ hc)
    exact abbrev_fixed hd pre suf hqh hqpre hqsuf hcm hpre_len hsuf_len

/-- C5 witness: the abbreviation of the 187-byte data URL is a fixed point of
`format_file_name`. -/
theorem format_file_name_idempotent_witness :
    format_file_name parseUrl dataUrl31Abbrev = some dataUrl31Abbrev :=
  format_file_name_idempotent dataUrl31 dataUrl31Abbrev (by decide)

theorem data_empty : ("" : String).data = [] := rfl

theorem data_newline : ("\n" : String).data = ['\n'] := rfl

theorem indentStr_zero : indentStr 0 = "" := rfl

theorem colStep_eq (idx : Option Nat) (fr : List JsStackFrame)
    (h : idxOk idx fr = true) :
    colStep idx fr = some (specCol idx fr) := by
  cases idx with
  | none => rfl
  | some i =>
    have hi : i < fr.length := by simpa [idxOk] using h
    have hf : fr.get? i = some (fr.get ⟨i, hi⟩) := List.get?_eq_get hi
    show (fr.get? i).map (fun f => f.column_number) =
      some (specCol (some i) fr)
    simp only [specCol, hf, Option.map_some']

theorem prettyJsError_eq_specRender_aux : ∀ (e : JsError),
    wfChain e = true → prettyJsError e = specRender e
  | .mk m sl idx fr none, h => by
    have hwf : idxOk idx fr = true := by
      simp only [wfChain, Bool.and_eq_true] at h
      exact h.1
    simp only [prettyJsError, specRender, format_stack,
      colStep_eq idx fr hwf, renderFrames_eq]
    cases hsrc : format_maybe_source_line sl (specCol idx fr) true 0 with
    | none => rfl
    | some src =>
      cases hmf : mapFrames fr with
      | none => rfl
      | some ds =>
        show some (indentStr 0 ++ m ++ src ++ joinFrameLines 0 ds ++ "") =
          some (m ++ src ++ joinFrameLines 0 ds)
        refine congrArg some (strExt ?_)
        simp only [data_append, data_empty, indentStr_zero,
          List.nil_append, List.append_nil]
  | .mk m sl idx fr (some c), h => by
    have hparts : idxOk idx fr = true ∧ wfChain c = true := by
      simpa only [wfChain, Bool.and_eq_true] using h
    have ih := prettyJsError_eq_specRender_aux c hparts.2
    simp only [prettyJsError, specRender, format_stack,
      colStep_eq idx fr hparts.1, renderFrames_eq, ih]
    cases hc : specRender c with
    | none =>
      cases hsrc : format_maybe_source_line sl (specCol idx fr) true 0 with
      | none => rfl
      | some src =>
        cases hmf : mapFrames fr with
        | none => rfl
        | some ds => rfl
    | some cs =>
      cases hsrc : format_maybe_source_line sl (specCol idx fr) true 0 with
      | none => rfl
      | some src =>
        cases hmf : mapFrames fr with
        | none => rfl
        | some ds =>
          show some (indentStr 0 ++ m ++ src ++ joinFrameLines 0 ds ++
              ("\n" ++ indentStr 0 ++ "Caused by: " ++ cs)) =
            some (m ++ src ++ joinFrameLines 0 ds ++ "\nCaused by: " ++ cs)
          refine congrArg some (strExt ?_)
          simp only [data_append, data_empty, data_newline, indentStr_zero,
            List.nil_append, List.append_nil, List.append_assoc,
            List.cons_append]
  termination_by e => e

/-- C9: for every exception report whose cause chain never carries an
out-of-range `source_line_frame_index` (otherwise the code panics, see C1),
the rendered report has exactly the shape the spec describes: the message
line, the source-line fragment, then each frame in its given order as a new
line `"    at <FrameDescriber output>"`, and one `"Caused by: "` line per
cause, each holding that cause's own fully rendered report at the same
indentation. -/
theorem prettyJsError_eq_specRender (e : JsError) (h : wfChain e = true) :
    prettyJsError e = specRender e :=
  prettyJsError_eq_specRender_aux e h

/-- C9 witness: a report with a cause chain of depth 2 renders as the spec
shape; concretely it is `"error A\nCaused by: error B\nCaused by: error C"`. -/
theorem prettyJsError_eq_specRender_witness :
    prettyJsError chain2 = specRender chain2 ∧
    prettyJsError chain2 =
      some ("error A" ++ "\nCaused by: " ++ "error B" ++ "\nCaused by: " ++
        "error C") :=
  ⟨prettyJsError_eq_specRender chain2 (by decide), by decide⟩

end FmtErrors
